import Mathlib

/-!
# Verification of the ledger block decoder / migrator

A shallow embedding of `src/main.rs`: a one-shot resumable pipeline that
copies a ledger's block log from a source SQLite store into a target store,
decoding each block's bytes into flattened transaction columns on the way.

Modelling conventions:
* SQLite tables are Lean lists of rows in table order.  The source table's
  `idx` column is its integer primary key, so a range `SELECT` returns rows
  sorted by `idx`; we carry the sortedness of the source list as an explicit
  hypothesis where a claim needs it.
* Byte blobs are `List Nat`.
* `u64` indices and amounts are `Nat` (the program never exercises wrap-around).
* The block decoder `<Block as BlockType>::decode` lives in the external
  `ledger_canister` crate, outside this repository; the pipeline is
  parametrised by an arbitrary decoder `decode : Bytes → Option Block`,
  where `none` models a decode error (the code's `.unwrap()` panic).
* The `f64` timestamp arithmetic is modelled by exact rationals together
  with an executable IEEE-754 round-to-nearest-even rounding function at
  53 bits of precision (`roundB64`), which is exact binary64 semantics for
  the normal range exercised here.
-/

namespace LedgerDecoder

/-- Raw byte blobs (`Vec<u8>` in the source). -/
abbrev Bytes := List Nat

/-- The `Operation` variant of `ledger_canister`: the three transaction
kinds matched by the source's `from`/`to`/`amount`/`fee` helpers.  Account
identifiers are their byte serialisations (`AccountIdentifier::to_vec`). -/
inductive Operation where
  | Burn (from_acct : Bytes) (amount : Nat)
  | Mint (to_acct : Bytes) (amount : Nat)
  | Transfer (from_acct : Bytes) (to_acct : Bytes) (amount : Nat) (fee : Nat)
  deriving DecidableEq

/-- A decoded transaction: `memo.0 : u64`, creation time in nanoseconds
since the epoch, and the operation. -/
structure Transaction where
  operation : Operation
  memo : Nat
  created_at_time : Nat
  deriving DecidableEq

/-- A decoded `Block` of `ledger_canister`: optional parent hash, the
transaction, and the block timestamp in nanoseconds since the epoch. -/
structure Block where
  parent_hash : Option Bytes
  transaction : Transaction
  timestamp : Nat
  deriving DecidableEq

/-- One row of the source store's `blocks` table, as read by the
`SELECT hash, block, parent_hash, idx, verified` query: index, content
hash, raw (encoded) block bytes and the verified flag. -/
structure SourceRecord where
  idx : Nat
  hash : Bytes
  block : Bytes
  verified : Bool
  deriving DecidableEq

/-- The `DecodedBlock` struct of `src/main.rs`. -/
structure DecodedBlock where
  idx : Nat
  hash : Bytes
  block : Block
  verified : Bool
  deriving DecidableEq

/-! ## Field extractor (`fn from`, `fn to`, `fn amount`, `fn fee`) -/

/-- `fn from(op: &Operation) -> Option<Vec<u8>>` of `src/main.rs`. -/
def op_from : Operation → Option Bytes
  | .Burn f _ => some f
  | .Mint _ _ => none
  | .Transfer f _ _ _ => some f

/-- `fn to(op: &Operation) -> Option<Vec<u8>>` of `src/main.rs`. -/
def op_to : Operation → Option Bytes
  | .Burn _ _ => none
  | .Mint t _ => some t
  | .Transfer _ t _ _ => some t

/-- `fn amount(op: &Operation) -> u64` of `src/main.rs` (`Tokens::get_e8s`). -/
def op_amount : Operation → Nat
  | .Burn _ a => a
  | .Mint _ a => a
  | .Transfer _ _ a _ => a

/-- `fn fee(op: &Operation) -> Option<u64>` of `src/main.rs`. -/
def op_fee : Operation → Option Nat
  | .Burn _ _ => none
  | .Mint _ _ => none
  | .Transfer _ _ _ f => some f

/-! ## IEEE-754 binary64 model for the timestamp conversion

`src/main.rs` stores timestamps as
`nanos as f64 / 1_000_000_000f64`.  We model `f64` values by exact
rationals and implement round-to-nearest-even at 53 significant bits,
which is binary64 arithmetic for the (normal, non-overflowing) magnitudes
the program handles. -/

/-- `scale q e = q * 2^e` for an integer exponent `e`. -/
def scale (q : ℚ) (e : Int) : ℚ :=
  if 0 ≤ e then q * (2 ^ e.toNat : ℚ) else q / (2 ^ (-e).toNat : ℚ)

/-- Fuel-driven binary logarithm (structurally recursive so that concrete
instances reduce inside the kernel). -/
def log2fuel : Nat → Nat → Nat
  | 0, _ => 0
  | f + 1, n => if 2 ≤ n then log2fuel f (n / 2) + 1 else 0

/-- `⌊log₂ n⌋` for `n ≥ 1` (and `0` at `0`): `n` itself is enough fuel. -/
def natLog2 (n : Nat) : Nat := log2fuel n n

/-- For `q > 0`, a pair `(x, e)` with `x = q * 2^(-e)` and
`2^52 ≤ x < 2^53` (the 53-bit significand window). -/
def mantExp (q : ℚ) : ℚ × Int :=
  let a : Int := natLog2 q.num.natAbs
  let b : Int := natLog2 q.den
  let e : Int := a - b - 52
  let x := scale q (-e)
  if x < (2 ^ 52 : ℚ) then (scale q (-(e - 1)), e - 1) else (x, e)

/-- Round a positive rational to the nearest binary64 value
(ties to even), with unbounded exponent range. -/
def roundPos (q : ℚ) : ℚ :=
  let p := mantExp q
  let fl : Int := p.1.floor
  let frac := p.1 - (fl : ℚ)
  let m : Int :=
    if frac < 1 / 2 then fl
    else if 1 / 2 < frac then fl + 1
    else if fl % 2 = 0 then fl else fl + 1
  scale (m : ℚ) p.2

/-- Round-to-nearest-even at 53 bits of precision: the binary64 value of
an exact rational (for magnitudes in the normal range). -/
def roundB64 (q : ℚ) : ℚ :=
  if q = 0 then 0 else if 0 < q then roundPos q else -(roundPos (-q))

/-- The `u64 → f64` cast (`nanos as f64`): round to nearest even. -/
def u64_as_f64 (n : Nat) : ℚ := roundB64 (n : ℚ)

/-- IEEE binary64 division: round the exact quotient. -/
def f64_div (x y : ℚ) : ℚ := roundB64 (x / y)

/-- The timestamp conversion of `src/main.rs` lines 126 and 131:
`nanos as f64 / 1_000_000_000f64` (the literal `1_000_000_000f64` is
exactly representable, so it denotes the rational `10^9`). -/
def nanosToSeconds (nanos : Nat) : ℚ :=
  f64_div (u64_as_f64 nanos) (1000000000 : ℚ)

/-! ## Target rows and the write path -/

/-- One row of the target `blocks` table, in the column order of the
`INSERT` statement of `src/main.rs` (the `CREATE TABLE` schema). -/
structure TargetRow where
  idx : Nat
  hash : Bytes
  parent_hash : Option Bytes
  memo : Nat
  created_at_time : ℚ
  from_account : Option Bytes
  to_account : Option Bytes
  amount : Nat
  fee : Option Nat
  timestamp : ℚ
  verified : Bool
  deriving DecidableEq

/-- The tuple bound by the `INSERT` statement of `src/main.rs`
(lines 121–133): the flattened projection of one `DecodedBlock`. -/
def decodedToRow (d : DecodedBlock) : TargetRow :=
  { idx := d.idx
    hash := d.hash
    parent_hash := d.block.parent_hash
    memo := d.block.transaction.memo
    created_at_time := nanosToSeconds d.block.transaction.created_at_time
    from_account := op_from d.block.transaction.operation
    to_account := op_to d.block.transaction.operation
    amount := op_amount d.block.transaction.operation
    fee := op_fee d.block.transaction.operation
    timestamp := nanosToSeconds d.block.timestamp
    verified := d.verified }

/-- `fn row_to_decoded_block` of `src/main.rs`: decode the raw block
bytes; `none` models the `.unwrap()` panic on a decode error. -/
def row_to_decoded_block (decode : Bytes → Option Block) (r : SourceRecord) :
    Option DecodedBlock :=
  (decode r.block).map fun b => ⟨r.idx, r.hash, b, r.verified⟩

/-- `SELECT MAX(idx) FROM blocks WHERE verified = 1` (`fn last_block`),
over the `(idx, verified)` projection of a table: the maximum index among
rows whose verified flag is set, `none` when there is no such row. -/
def last_block : List (Nat × Bool) → Option Nat
  | [] => none
  | (i, true) :: rest => some ((last_block rest).elim i (max i))
  | (_, false) :: rest => last_block rest

/-- `fn last_block` applied to the source connection. -/
def last_block_source (source : List SourceRecord) : Option Nat :=
  last_block (source.map fun r => (r.idx, r.verified))

/-- `fn last_block` applied to the target connection. -/
def last_block_target (target : List TargetRow) : Option Nat :=
  last_block (target.map fun r => (r.idx, r.verified))

/-- `let next_target_block = last_block(&target_conn).map_or(0, |x| x + 1)`. -/
def next_target_block (target : List TargetRow) : Nat :=
  match last_block_target target with
  | none => 0
  | some m => m + 1

/-- The range query
`SELECT ... FROM blocks WHERE idx >= ? AND idx < ?` on the source store:
the rows with `a ≤ idx < b`, in table order. -/
def queryRange (source : List SourceRecord) (a b : Nat) : List SourceRecord :=
  source.filter fun r => decide (a ≤ r.idx ∧ r.idx < b)

/-- `INSERT INTO blocks ...` against the target, whose `idx` column is the
primary key: fails (`None`) exactly when the target already holds a row
with the same `idx`, otherwise appends the row. -/
def insertRow (tgt : List TargetRow) (row : TargetRow) : Option (List TargetRow) :=
  if tgt.any fun r => r.idx == row.idx then none else some (tgt ++ [row])

/-- How a run stops early: the decode `.unwrap()` panic inside
`row_to_decoded_block`, or the `expect("Unable to write block ...")` panic
whose message formats the offending record (hence its `idx`, content hash,
decoded block and verified flag). -/
inductive RunError where
  | decodeFailure (idx : Nat)
  | writeFailure (idx : Nat) (rec : DecodedBlock)
  deriving DecidableEq

/-- How a run ends: the two early-exit status lines, normal completion of
the window loop, or an abort (panic). -/
inductive RunOutcome where
  | sourceEmpty
  | fullySynced (lastSourceBlock : Nat)
  | completed (nextTargetBlock : Nat)
  | failed (e : RunError)
  deriving DecidableEq

/-- The inner write loop (`for block in blocks`) over one window's rows:
decode each record and insert its flattened row, stopping at the first
decode or write failure, carrying the target state written so far. -/
def processRecords (decode : Bytes → Option Block) :
    List TargetRow → List SourceRecord → List TargetRow × Option RunError
  | tgt, [] => (tgt, none)
  | tgt, r :: rest =>
    match row_to_decoded_block decode r with
    | none => (tgt, some (.decodeFailure r.idx))
    | some d =>
      match insertRow tgt (decodedToRow d) with
      | none => (tgt, some (.writeFailure d.idx d))
      | some tgt' => processRecords decode tgt' rest

/-- The window loop (`for start in (next..=last).step_by(1000)`) over a
list of window start indices: each window queries `[s, s + 1000)` from the
source and writes its rows, stopping at the first failure. -/
def runWindows (decode : Bytes → Option Block) (source : List SourceRecord) :
    List TargetRow → List Nat → List TargetRow × Option RunError
  | tgt, [] => (tgt, none)
  | tgt, s :: rest =>
    match processRecords decode tgt (queryRange source s (s + 1000)) with
    | (tgt', none) => runWindows decode source tgt' rest
    | (tgt', some e) => (tgt', some e)

/-- The start indices produced by `(next..=last).step_by(1000)`. -/
def windowStarts (next last : Nat) : List Nat :=
  if next ≤ last then List.range' next ((last - next) / 1000 + 1) 1000 else []

/-- `fn main` after argument parsing and schema creation: compute the
resume point, handle the empty-source and fully-synced early exits, then
run the window loop.  Returns the final target table and the outcome. -/
def runMigration (decode : Bytes → Option Block) (source : List SourceRecord)
    (target : List TargetRow) : List TargetRow × RunOutcome :=
  let next := next_target_block target
  match last_block_source source with
  | none => (target, .sourceEmpty)
  | some last =>
    if last < next then (target, .fullySynced last)
    else
      match runWindows decode source target (windowStarts next last) with
      | (tgt', none) => (tgt', .completed next)
      | (tgt', some e) => (tgt', .failed e)

/-! ## Derived notions used to state the claims -/

/-- The rows a list of source records flattens to (records whose bytes
fail to decode contribute nothing). -/
def migratedRows (decode : Bytes → Option Block) (rs : List SourceRecord) :
    List TargetRow :=
  rs.filterMap fun r => (row_to_decoded_block decode r).map decodedToRow

/-- All source records fetched by a list of windows, in processing order. -/
def windowRecords (source : List SourceRecord) (starts : List Nat) :
    List SourceRecord :=
  starts.flatMap fun s => queryRange source s (s + 1000)

/-- One past the last index requested by the window loop (the end of the
last window) when `next ≤ last`. -/
def windowEnd (next last : Nat) : Nat :=
  next + 1000 * ((last - next) / 1000 + 1)

/-- The number of indices of the inclusive range `[next, last]` that fall
into the window starting at `s` (the window's effective size). -/
def windowSpan (last s : Nat) : Nat := min (s + 1000) (last + 1) - s

/-- How many rows of a target table carry the index `i`. -/
def idxCount (rows : List TargetRow) (i : Nat) : Nat :=
  rows.countP fun row => row.idx == i

/-! ## Concrete stores used by counterexamples and witnesses -/

/-- A concrete decoded block for concrete runs. -/
def sampleBlock : Block :=
  { parent_hash := none
    transaction := { operation := .Mint [1] 7, memo := 0, created_at_time := 0 }
    timestamp := 0 }

/-- A decoder that accepts every blob (decode always succeeds). -/
def sampleDecode : Bytes → Option Block := fun _ => some sampleBlock

/-- A decoder that accepts only the empty blob: any other byte string is
malformed. -/
def pickyDecode : Bytes → Option Block :=
  fun bs => if bs = [] then some sampleBlock else none

/-- A source store whose verified prefix is the single block `0`, followed
by one unverified block at index `1`: both indices fall inside the first
requested window `[0, 1000)`. -/
def cexSource : List SourceRecord :=
  [⟨0, [1], [], true⟩, ⟨1, [2], [], false⟩]

/-- A source store holding exactly one verified block, at index `0`. -/
def oneSource : List SourceRecord := [⟨0, [1], [], true⟩]

/-- A target table holding a single unverified row at index `5`. -/
def unverifiedTarget : List TargetRow :=
  [⟨5, [9], none, 0, 0, none, none, 0, none, 0, false⟩]

/-- A well-formed all-verified source store with contiguous indices
`0, …, n-1` (used for the 2500-block chunking scenario). -/
def exSource (n : Nat) : List SourceRecord :=
  (List.range n).map fun k => ⟨k, [], [], true⟩

/-- A target table already holding a row at index `0` (so that inserting
index `0` again violates the primary-key constraint). -/
def dupTarget : List TargetRow :=
  [⟨0, [1], none, 0, 0, none, none, 0, none, 0, true⟩]

/-- A source store holding exactly one verified block, at index `5`. -/
def srcFive : List SourceRecord := [⟨5, [1], [], true⟩]

/-- A source store whose window `[0, 1000)` contains a malformed block at
index `1` (its bytes `[7]` are rejected by `pickyDecode`), followed by a
decodable verified block in the later window `[1000, 2000)`. -/
def badSource : List SourceRecord :=
  [⟨0, [1], [], true⟩, ⟨1, [2], [7], true⟩, ⟨1000, [3], [], true⟩]

/-! ## Properties of `last_block` (the `MAX(idx) WHERE verified = 1` query) -/

theorem last_block_eq_none_iff {rows : List (Nat × Bool)} :
    last_block rows = none ↔ ∀ p ∈ rows, p.2 = false := by
  induction rows with
  | nil => simp [last_block]
  | cons r rest ih =>
    obtain ⟨ri, rv⟩ := r
    cases rv <;> simp [last_block, ih]

theorem last_block_mem {rows : List (Nat × Bool)} {m : Nat}
    (h : last_block rows = some m) : (m, true) ∈ rows := by
  induction rows generalizing m with
  | nil => simp [last_block] at h
  | cons r rest ih =>
    obtain ⟨ri, rv⟩ := r
    cases rv with
    | false =>
      simp only [last_block] at h
      exact List.mem_cons_of_mem _ (ih h)
    | true =>
      simp only [last_block, Option.some.injEq] at h
      rcases hm : last_block rest with _ | m' <;>
        rw [hm] at h <;> simp only [Option.elim] at h
      · subst h
        exact List.mem_cons_self _ _
      · rcases Nat.le_total ri m' with hle | hle
        · rw [Nat.max_eq_right hle] at h
          subst h
          exact List.mem_cons_of_mem _ (ih hm)
        · rw [Nat.max_eq_left hle] at h
          subst h
          exact List.mem_cons_self _ _

theorem last_block_le {rows : List (Nat × Bool)} {m : Nat}
    (h : last_block rows = some m) : ∀ p ∈ rows, p.2 = true → p.1 ≤ m := by
  induction rows generalizing m with
  | nil => simp
  | cons r rest ih =>
    obtain ⟨ri, rv⟩ := r
    intro p hp hv
    cases rv with
    | false =>
      simp only [last_block] at h
      rcases List.mem_cons.mp hp with heq | hp'
      · subst heq
        simp at hv
      · exact ih h p hp' hv
    | true =>
      simp only [last_block, Option.some.injEq] at h
      rcases hm : last_block rest with _ | m' <;>
        rw [hm] at h <;> simp only [Option.elim] at h
      · rcases List.mem_cons.mp hp with heq | hp'
        · subst heq
          simpa using h.le
        · have := last_block_eq_none_iff.mp hm p hp'
          rw [this] at hv
          cases hv
      · rcases List.mem_cons.mp hp with heq | hp'
        · subst heq
          exact h ▸ Nat.le_max_left ri m'
        · have := ih hm p hp' hv
          exact h ▸ le_trans this (Nat.le_max_right ri m')

theorem last_block_isSome_of_mem {rows : List (Nat × Bool)} {i : Nat}
    (h : (i, true) ∈ rows) : ∃ m, last_block rows = some m := by
  rcases hm : last_block rows with _ | m
  · have := last_block_eq_none_iff.mp hm _ h
    simp at this
  · exact ⟨m, rfl⟩

theorem last_block_eq_some_of {rows : List (Nat × Bool)} {m : Nat}
    (hmem : (m, true) ∈ rows) (hle : ∀ p ∈ rows, p.2 = true → p.1 ≤ m) :
    last_block rows = some m := by
  obtain ⟨m', hm'⟩ := last_block_isSome_of_mem hmem
  have h1 : m' ≤ m := hle _ (last_block_mem hm') rfl
  have h2 : m ≤ m' := last_block_le hm' _ hmem rfl
  rw [hm']
  exact congrArg some (Nat.le_antisymm h1 h2)

theorem last_block_source_le {source : List SourceRecord} {m : Nat}
    (h : last_block_source source = some m) :
    ∀ r ∈ source, r.verified = true → r.idx ≤ m := by
  intro r hr hv
  have h' : last_block (source.map fun r => (r.idx, r.verified)) = some m := h
  have := last_block_le h' (r.idx, r.verified) (List.mem_map_of_mem _ hr) hv
  exact this

theorem last_block_source_mem {source : List SourceRecord} {m : Nat}
    (h : last_block_source source = some m) :
    ∃ r ∈ source, r.verified = true ∧ r.idx = m := by
  have h' : last_block (source.map fun r => (r.idx, r.verified)) = some m := h
  obtain ⟨r, hr, heq⟩ := List.mem_map.mp (last_block_mem h')
  refine ⟨r, hr, ?_, ?_⟩
  · have : (r.idx, r.verified).2 = (m, true).2 := by rw [heq]
    simpa using this
  · have : (r.idx, r.verified).1 = (m, true).1 := by rw [heq]
    simpa using this

theorem last_block_source_eq_some_of {source : List SourceRecord} {m : Nat}
    (hmem : ∃ r ∈ source, r.verified = true ∧ r.idx = m)
    (hle : ∀ r ∈ source, r.verified = true → r.idx ≤ m) :
    last_block_source source = some m := by
  obtain ⟨r, hr, hv, hidx⟩ := hmem
  show last_block (source.map fun r => (r.idx, r.verified)) = some m
  refine last_block_eq_some_of ?_ ?_
  · have : (r.idx, r.verified) ∈ source.map fun r => (r.idx, r.verified) :=
      List.mem_map_of_mem _ hr
    rw [hidx, hv] at this
    exact this
  · intro p hp hpv
    obtain ⟨r', hr', heq⟩ := List.mem_map.mp hp
    subst heq
    exact hle r' hr' hpv

theorem last_block_target_eq_some_of {target : List TargetRow} {m : Nat}
    (hmem : ∃ row ∈ target, row.verified = true ∧ row.idx = m)
    (hle : ∀ row ∈ target, row.verified = true → row.idx ≤ m) :
    last_block_target target = some m := by
  obtain ⟨row, hrow, hv, hidx⟩ := hmem
  show last_block (target.map fun r => (r.idx, r.verified)) = some m
  refine last_block_eq_some_of ?_ ?_
  · have : (row.idx, row.verified) ∈ target.map fun r => (r.idx, r.verified) :=
      List.mem_map_of_mem _ hrow
    rw [hidx, hv] at this
    exact this
  · intro p hp hpv
    obtain ⟨r', hr', heq⟩ := List.mem_map.mp hp
    subst heq
    exact hle r' hr' hpv

theorem last_block_target_eq_none {target : List TargetRow}
    (h : ∀ row ∈ target, row.verified = false) :
    last_block_target target = none := by
  show last_block (target.map fun r => (r.idx, r.verified)) = none
  refine last_block_eq_none_iff.mpr ?_
  intro p hp
  obtain ⟨r, hr, heq⟩ := List.mem_map.mp hp
  subst heq
  exact h r hr

/-! ## Properties of the window split (`(next..=last).step_by(1000)`) -/

theorem mem_windowStarts {next last s : Nat} :
    s ∈ windowStarts next last ↔
      next ≤ last ∧ ∃ k, k ≤ (last - next) / 1000 ∧ s = next + 1000 * k := by
  unfold windowStarts
  by_cases h : next ≤ last
  · rw [if_pos h]
    rw [List.mem_range']
    constructor
    · rintro ⟨k, hk, rfl⟩
      exact ⟨h, k, by omega, rfl⟩
    · rintro ⟨-, k, hk, rfl⟩
      exact ⟨k, by omega, rfl⟩
  · rw [if_neg h]
    simp [h]

theorem windowStarts_le {next last s : Nat} (h : s ∈ windowStarts next last) :
    next ≤ s ∧ s ≤ last := by
  obtain ⟨hle, k, hk, rfl⟩ := mem_windowStarts.mp h
  constructor
  · omega
  · have h1 : 1000 * k ≤ 1000 * ((last - next) / 1000) :=
      Nat.mul_le_mul_left _ hk
    have h2 : (last - next) / 1000 * 1000 ≤ last - next :=
      Nat.div_mul_le_self _ _
    omega

theorem windowStarts_cover {next last i : Nat} (h1 : next ≤ i) (h2 : i ≤ last) :
    ∃ s ∈ windowStarts next last, s ≤ i ∧ i < s + 1000 := by
  refine ⟨next + 1000 * ((i - next) / 1000), ?_, ?_, ?_⟩
  · refine mem_windowStarts.mpr ⟨by omega, (i - next) / 1000,
      Nat.div_le_div_right (by omega), rfl⟩
  · have := Nat.div_mul_le_self (i - next) 1000
    omega
  · have h3 := Nat.div_add_mod (i - next) 1000
    have h4 := Nat.mod_lt (i - next) (by omega : (1000:Nat) > 0)
    omega

theorem windowStarts_inj {next last s1 s2 i : Nat}
    (hs1 : s1 ∈ windowStarts next last) (hs2 : s2 ∈ windowStarts next last)
    (ha : s1 ≤ i) (hb : i < s1 + 1000) (hc : s2 ≤ i) (hd : i < s2 + 1000) :
    s1 = s2 := by
  obtain ⟨-, k1, -, rfl⟩ := mem_windowStarts.mp hs1
  obtain ⟨-, k2, -, rfl⟩ := mem_windowStarts.mp hs2
  omega

theorem windowStarts_pairwise (next last : Nat) :
    (windowStarts next last).Pairwise (· < ·) := by
  unfold windowStarts
  by_cases h : next ≤ last
  · rw [if_pos h]
    exact List.pairwise_lt_range' _ _ 1000 (by omega)
  · rw [if_neg h]
    exact List.Pairwise.nil

theorem chain'_range'_step :
    ∀ (n s : Nat), List.Chain' (fun a b => b = a + 1000) (List.range' s n 1000)
  | 0, s => by simp
  | 1, s => by simp
  | n + 2, s => by
    rw [List.range'_succ, List.range'_succ]
    exact List.chain'_cons.mpr ⟨rfl, by
      rw [← List.range'_succ]
      exact chain'_range'_step (n + 1) (s + 1000)⟩

theorem windowStarts_chain (next last : Nat) :
    List.Chain' (fun a b => b = a + 1000) (windowStarts next last) := by
  unfold windowStarts
  by_cases h : next ≤ last
  · rw [if_pos h]
    exact chain'_range'_step _ _
  · rw [if_neg h]
    simp

theorem windowStarts_eq_cons (h : next ≤ last) :
    windowStarts next last =
      next :: List.range' (next + 1000) ((last - next) / 1000) 1000 := by
  unfold windowStarts
  rw [if_pos h, List.range'_succ]

theorem windowEnd_spec {next last s : Nat} (hs : s ∈ windowStarts next last) :
    s + 1000 ≤ windowEnd next last := by
  obtain ⟨hle, k, hk, rfl⟩ := mem_windowStarts.mp hs
  unfold windowEnd
  omega

/-! ## Properties of the range query -/

theorem mem_queryRange {source : List SourceRecord} {a b : Nat} {r : SourceRecord} :
    r ∈ queryRange source a b ↔ r ∈ source ∧ a ≤ r.idx ∧ r.idx < b := by
  unfold queryRange
  rw [List.mem_filter]
  simp

theorem queryRange_pairwise {source : List SourceRecord} {a b : Nat}
    {R : SourceRecord → SourceRecord → Prop} (h : source.Pairwise R) :
    (queryRange source a b).Pairwise R :=
  h.sublist (List.filter_sublist _)

/-! ## Properties of the write loop -/

theorem processRecords_append (decode : Bytes → Option Block)
    (l1 l2 : List SourceRecord) :
    ∀ tgt : List TargetRow,
      processRecords decode tgt (l1 ++ l2) =
        match processRecords decode tgt l1 with
        | (t, none) => processRecords decode t l2
        | (t, some e) => (t, some e) := by
  induction l1 with
  | nil => intro tgt; rfl
  | cons r rest ih =>
    intro tgt
    show processRecords decode tgt (r :: (rest ++ l2)) = _
    cases hd : row_to_decoded_block decode r with
    | none => simp only [processRecords, hd]
    | some d =>
      cases hi : insertRow tgt (decodedToRow d) with
      | none => simp only [processRecords, hd, hi]
      | some tgt' =>
        simp only [processRecords, hd, hi]
        exact ih tgt'

theorem runWindows_eq_processRecords (decode : Bytes → Option Block)
    (source : List SourceRecord) :
    ∀ (starts : List Nat) (tgt : List TargetRow),
      runWindows decode source tgt starts =
        processRecords decode tgt (windowRecords source starts) := by
  intro starts
  induction starts with
  | nil => intro tgt; rfl
  | cons st rest ih =>
    intro tgt
    have hwr : windowRecords source (st :: rest) =
        queryRange source st (st + 1000) ++ windowRecords source rest := by
      simp [windowRecords]
    rw [hwr]
    rw [processRecords_append]
    unfold runWindows
    cases hp : processRecords decode tgt (queryRange source st (st + 1000)) with
    | mk t e =>
      cases e with
      | none => exact ih t
      | some err => rfl

theorem processRecords_success (decode : Bytes → Option Block) :
    ∀ (rs : List SourceRecord) (tgt : List TargetRow),
      (∀ r ∈ rs, (decode r.block).isSome = true) →
      (∀ r ∈ rs, ∀ row ∈ tgt, row.idx ≠ r.idx) →
      rs.Pairwise (fun a b => a.idx ≠ b.idx) →
      processRecords decode tgt rs = (tgt ++ migratedRows decode rs, none) := by
  intro rs
  induction rs with
  | nil => intro tgt _ _ _; simp [processRecords, migratedRows]
  | cons r rest ih =>
    intro tgt hdec hfresh hdist
    obtain ⟨b, hb⟩ := Option.isSome_iff_exists.mp (hdec r (List.mem_cons_self _ _))
    have hrow : row_to_decoded_block decode r = some ⟨r.idx, r.hash, b, r.verified⟩ := by
      simp [row_to_decoded_block, hb]
    have hins : insertRow tgt (decodedToRow ⟨r.idx, r.hash, b, r.verified⟩) =
        some (tgt ++ [decodedToRow ⟨r.idx, r.hash, b, r.verified⟩]) := by
      unfold insertRow
      rw [if_neg]
      intro hany
      obtain ⟨row, hrowm, hbeq⟩ := List.any_eq_true.mp hany
      exact hfresh r (List.mem_cons_self _ _) row hrowm (by simpa [decodedToRow] using hbeq)
    show processRecords decode tgt (r :: rest) = _
    simp only [processRecords, hrow, hins]
    have hmig : migratedRows decode (r :: rest) =
        decodedToRow ⟨r.idx, r.hash, b, r.verified⟩ :: migratedRows decode rest := by
      simp [migratedRows, row_to_decoded_block, hb]
    rw [hmig]
    rw [ih (tgt ++ [decodedToRow ⟨r.idx, r.hash, b, r.verified⟩])
      (fun r' hr' => hdec r' (List.mem_cons_of_mem _ hr'))
      ?_ (List.Pairwise.sublist (List.sublist_cons_self _ _) hdist)]
    · simp
    · intro r' hr' row hrowm
      rcases List.mem_append.mp hrowm with hin | hin
      · exact hfresh r' (List.mem_cons_of_mem _ hr') row hin
      · have : row = decodedToRow ⟨r.idx, r.hash, b, r.verified⟩ := by simpa using hin
        subst this
        show r.idx ≠ r'.idx
        exact (List.pairwise_cons.mp hdist).1 r' hr'

theorem processRecords_mem (decode : Bytes → Option Block) :
    ∀ (rs : List SourceRecord) (tgt : List TargetRow),
      ∀ row ∈ (processRecords decode tgt rs).1,
        row ∈ tgt ∨ ∃ r ∈ rs, ∃ b, decode r.block = some b ∧
          row = decodedToRow ⟨r.idx, r.hash, b, r.verified⟩ := by
  intro rs
  induction rs with
  | nil => intro tgt row h; exact .inl h
  | cons r rest ih =>
    intro tgt row h
    cases hd : row_to_decoded_block decode r with
    | none =>
      simp only [processRecords, hd] at h
      exact .inl h
    | some d =>
      cases hi : insertRow tgt (decodedToRow d) with
      | none =>
        simp only [processRecords, hd, hi] at h
        exact .inl h
      | some tgt' =>
        simp only [processRecords, hd, hi] at h
        obtain ⟨b, hb, hdb⟩ : ∃ b, decode r.block = some b ∧
            d = ⟨r.idx, r.hash, b, r.verified⟩ := by
          unfold row_to_decoded_block at hd
          cases hdec : decode r.block with
          | none => rw [hdec] at hd; cases hd
          | some b =>
            rw [hdec] at hd
            exact ⟨b, rfl, by simpa using hd.symm⟩
        have htgt' : tgt' = tgt ++ [decodedToRow d] := by
          unfold insertRow at hi
          by_cases hc : tgt.any fun r0 => r0.idx == (decodedToRow d).idx
          · rw [if_pos hc] at hi; cases hi
          · rw [if_neg hc] at hi
            exact (Option.some.injEq _ _ ▸ hi).symm
        rcases ih tgt' row h with hin | ⟨r', hr', b', hb', heq⟩
        · rw [htgt'] at hin
          rcases List.mem_append.mp hin with hin | hin
          · exact .inl hin
          · have : row = decodedToRow d := by simpa using hin
            exact .inr ⟨r, List.mem_cons_self _ _, b, hb, by rw [this, hdb]⟩
        · exact .inr ⟨r', List.mem_cons_of_mem _ hr', b', hb', heq⟩

theorem processRecords_mem_of_bad (decode : Bytes → Option Block)
    {r : SourceRecord} (hbad : decode r.block = none) :
    ∀ (rs1 rs2 : List SourceRecord) (tgt : List TargetRow),
      ∀ row ∈ (processRecords decode tgt (rs1 ++ r :: rs2)).1,
        row ∈ tgt ∨ ∃ r' ∈ rs1, ∃ b, decode r'.block = some b ∧
          row = decodedToRow ⟨r'.idx, r'.hash, b, r'.verified⟩ := by
  intro rs1
  induction rs1 with
  | nil =>
    intro rs2 tgt row h
    have hnone : row_to_decoded_block decode r = none := by
      simp [row_to_decoded_block, hbad]
    simp only [List.nil_append, processRecords, hnone] at h
    exact .inl h
  | cons r1 rest ih =>
    intro rs2 tgt row h
    rw [List.cons_append] at h
    cases hd : row_to_decoded_block decode r1 with
    | none =>
      simp only [processRecords, hd] at h
      exact .inl h
    | some d =>
      cases hi : insertRow tgt (decodedToRow d) with
      | none =>
        simp only [processRecords, hd, hi] at h
        exact .inl h
      | some tgt' =>
        simp only [processRecords, hd, hi] at h
        obtain ⟨b, hb, hdb⟩ : ∃ b, decode r1.block = some b ∧
            d = ⟨r1.idx, r1.hash, b, r1.verified⟩ := by
          unfold row_to_decoded_block at hd
          cases hdec : decode r1.block with
          | none => rw [hdec] at hd; cases hd
          | some b =>
            rw [hdec] at hd
            exact ⟨b, rfl, by simpa using hd.symm⟩
        have htgt' : tgt' = tgt ++ [decodedToRow d] := by
          unfold insertRow at hi
          by_cases hc : tgt.any fun r0 => r0.idx == (decodedToRow d).idx
          · rw [if_pos hc] at hi; cases hi
          · rw [if_neg hc] at hi
            exact (Option.some.injEq _ _ ▸ hi).symm
        rcases ih rs2 tgt' row h with hin | ⟨r', hr', b', hb', heq⟩
        · rw [htgt'] at hin
          rcases List.mem_append.mp hin with hin | hin
          · exact .inl hin
          · have : row = decodedToRow d := by simpa using hin
            exact .inr ⟨r1, List.mem_cons_self _ _, b, hb, by rw [this, hdb]⟩
        · exact .inr ⟨r', List.mem_cons_of_mem _ hr', b', hb', heq⟩

theorem processRecords_fails (decode : Bytes → Option Block)
    {r : SourceRecord} (hbad : decode r.block = none) :
    ∀ (rs : List SourceRecord) (tgt : List TargetRow), r ∈ rs →
      ∃ e, (processRecords decode tgt rs).2 = some e := by
  intro rs
  induction rs with
  | nil => intro tgt h; cases h
  | cons r1 rest ih =>
    intro tgt hr
    cases hd : row_to_decoded_block decode r1 with
    | none =>
      exact ⟨.decodeFailure r1.idx, by simp only [processRecords, hd]⟩
    | some d =>
      cases hi : insertRow tgt (decodedToRow d) with
      | none =>
        exact ⟨.writeFailure d.idx d, by simp only [processRecords, hd, hi]⟩
      | some tgt' =>
        rcases List.mem_cons.mp hr with heq | hmem
        · subst heq
          have hnone : row_to_decoded_block decode r = none := by
            simp [row_to_decoded_block, hbad]
          rw [hnone] at hd
          cases hd
        · obtain ⟨e, he⟩ := ih tgt' hmem
          exact ⟨e, by simp only [processRecords, hd, hi]; exact he⟩

theorem migratedRows_idxCount (decode : Bytes → Option Block) (i : Nat) :
    ∀ rs : List SourceRecord, (∀ r ∈ rs, (decode r.block).isSome = true) →
      idxCount (migratedRows decode rs) i = rs.countP fun r => r.idx == i := by
  intro rs
  induction rs with
  | nil => intro _; rfl
  | cons r rest ih =>
    intro hdec
    obtain ⟨b, hb⟩ := Option.isSome_iff_exists.mp (hdec r (List.mem_cons_self _ _))
    have hmig : migratedRows decode (r :: rest) =
        decodedToRow ⟨r.idx, r.hash, b, r.verified⟩ :: migratedRows decode rest := by
      simp [migratedRows, row_to_decoded_block, hb]
    rw [hmig]
    unfold idxCount at *
    rw [List.countP_cons, List.countP_cons,
      ih fun r' hr' => hdec r' (List.mem_cons_of_mem _ hr')]
    simp [decodedToRow]

theorem migratedRows_mem {decode : Bytes → Option Block} {rs : List SourceRecord}
    {row : TargetRow} (h : row ∈ migratedRows decode rs) :
    ∃ r ∈ rs, ∃ b, decode r.block = some b ∧
      row = decodedToRow ⟨r.idx, r.hash, b, r.verified⟩ := by
  obtain ⟨r, hr, hf⟩ := List.mem_filterMap.mp h
  refine ⟨r, hr, ?_⟩
  unfold row_to_decoded_block at hf
  cases hdec : decode r.block with
  | none => rw [hdec] at hf; cases hf
  | some b =>
    rw [hdec] at hf
    exact ⟨b, rfl, by simpa using hf.symm⟩

theorem migratedRows_mem_of {decode : Bytes → Option Block}
    {rs : List SourceRecord} {r : SourceRecord} {b : Block}
    (hr : r ∈ rs) (hb : decode r.block = some b) :
    decodedToRow ⟨r.idx, r.hash, b, r.verified⟩ ∈ migratedRows decode rs := by
  refine List.mem_filterMap.mpr ⟨r, hr, ?_⟩
  simp [row_to_decoded_block, hb]

/-! ## Properties of the records fetched by all windows -/

theorem mem_windowRecords {source : List SourceRecord} {starts : List Nat}
    {r : SourceRecord} :
    r ∈ windowRecords source starts ↔
      ∃ s, s ∈ starts ∧ r ∈ queryRange source s (s + 1000) :=
  List.mem_flatMap

theorem windowRecords_mem_source {source : List SourceRecord} {starts : List Nat}
    {r : SourceRecord} (h : r ∈ windowRecords source starts) : r ∈ source := by
  obtain ⟨s, -, hq⟩ := mem_windowRecords.mp h
  exact (mem_queryRange.mp hq).1

theorem windowRecords_idx_lb {source : List SourceRecord} {next last : Nat}
    {r : SourceRecord} (h : r ∈ windowRecords source (windowStarts next last)) :
    next ≤ r.idx := by
  obtain ⟨s, hs, hq⟩ := mem_windowRecords.mp h
  have h1 := (windowStarts_le hs).1
  have h2 := (mem_queryRange.mp hq).2.1
  omega

theorem windowRecords_idx_ub {source : List SourceRecord} {next last : Nat}
    {r : SourceRecord} (h : r ∈ windowRecords source (windowStarts next last)) :
    r.idx < windowEnd next last := by
  obtain ⟨s, hs, hq⟩ := mem_windowRecords.mp h
  have h1 := windowEnd_spec hs
  have h2 := (mem_queryRange.mp hq).2.2
  omega

theorem windowRecords_idx_ge {source : List SourceRecord} {a n : Nat}
    {r : SourceRecord} (h : r ∈ windowRecords source (List.range' a n 1000)) :
    a ≤ r.idx := by
  obtain ⟨s, hs, hq⟩ := mem_windowRecords.mp h
  obtain ⟨k, -, rfl⟩ := List.mem_range'.mp hs
  have := (mem_queryRange.mp hq).2.1
  omega

theorem windowRecords_sorted {source : List SourceRecord}
    (hsorted : source.Pairwise fun a b => a.idx < b.idx) :
    ∀ (n a : Nat),
      (windowRecords source (List.range' a n 1000)).Pairwise
        fun x y => x.idx < y.idx := by
  intro n
  induction n with
  | zero => intro a; simp [windowRecords]
  | succ n ih =>
    intro a
    rw [List.range'_succ]
    have hsplit : windowRecords source (a :: List.range' (a + 1000) n 1000) =
        queryRange source a (a + 1000) ++
          windowRecords source (List.range' (a + 1000) n 1000) := by
      simp [windowRecords]
    rw [hsplit]
    rw [List.pairwise_append]
    refine ⟨queryRange_pairwise hsorted, ih (a + 1000), ?_⟩
    intro x hx y hy
    have h1 := (mem_queryRange.mp hx).2.2
    have h2 := windowRecords_idx_ge hy
    omega

theorem windowRecords_pairwise {source : List SourceRecord} {next last : Nat}
    (hsorted : source.Pairwise fun a b => a.idx < b.idx) :
    (windowRecords source (windowStarts next last)).Pairwise
      fun x y => x.idx < y.idx := by
  unfold windowStarts
  by_cases h : next ≤ last
  · rw [if_pos h]
    exact windowRecords_sorted hsorted _ _
  · rw [if_neg h]
    simp [windowRecords]

/-! ## Counting rows by index -/

theorem countP_source_one {source : List SourceRecord} {i : Nat}
    (hsorted : source.Pairwise fun a b => a.idx < b.idx)
    (hex : ∃ r ∈ source, r.idx = i) :
    (source.countP fun r => r.idx == i) = 1 := by
  induction source with
  | nil => simp at hex
  | cons h rest ih =>
    obtain ⟨hlt, hrest⟩ := List.pairwise_cons.mp hsorted
    by_cases hc : h.idx = i
    · rw [List.countP_cons_of_pos _ _ (by simpa using hc)]
      have hz : (rest.countP fun r => r.idx == i) = 0 := by
        rw [List.countP_eq_zero]
        intro r hr
        have := hlt r hr
        simp only [beq_iff_eq]
        omega
      rw [hz]
    · rw [List.countP_cons_of_neg _ _ (by simpa using hc)]
      refine ih hrest ?_
      obtain ⟨r, hr, hri⟩ := hex
      rcases List.mem_cons.mp hr with rfl | hr'
      · exact absurd hri hc
      · exact ⟨r, hr', hri⟩

theorem queryRange_countP_of_cover {source : List SourceRecord} {s i : Nat}
    (hc : s ≤ i ∧ i < s + 1000) :
    ((queryRange source s (s + 1000)).countP fun r => r.idx == i) =
      source.countP fun r => r.idx == i := by
  unfold queryRange
  rw [List.countP_filter]
  refine List.countP_congr ?_
  intro r _
  constructor
  · intro hand
    exact (Bool.and_eq_true _ _ ▸ hand).1
  · intro heq
    have : r.idx = i := by simpa using heq
    subst this
    simp only [heq, Bool.true_and, decide_eq_true_eq]
    omega

theorem queryRange_countP_of_not_cover {source : List SourceRecord} {s i : Nat}
    (hc : ¬(s ≤ i ∧ i < s + 1000)) :
    ((queryRange source s (s + 1000)).countP fun r => r.idx == i) = 0 := by
  rw [List.countP_eq_zero]
  intro r hr
  obtain ⟨-, h1, h2⟩ := mem_queryRange.mp hr
  simp only [beq_iff_eq]
  omega

theorem countP_windowRecords_aux {source : List SourceRecord} {i : Nat}
    (hone : (source.countP fun r => r.idx == i) = 1) :
    ∀ sts : List Nat, sts.Pairwise (· < ·) →
      (∀ s1 ∈ sts, ∀ s2 ∈ sts,
        (s1 ≤ i ∧ i < s1 + 1000) → (s2 ≤ i ∧ i < s2 + 1000) → s1 = s2) →
      (((∃ s ∈ sts, s ≤ i ∧ i < s + 1000) →
          ((windowRecords source sts).countP fun r => r.idx == i) = 1) ∧
        (¬(∃ s ∈ sts, s ≤ i ∧ i < s + 1000) →
          ((windowRecords source sts).countP fun r => r.idx == i) = 0)) := by
  intro sts
  induction sts with
  | nil =>
    intro _ _
    exact ⟨fun h => by simp at h, fun _ => by simp [windowRecords]⟩
  | cons s rest ih =>
    intro hpw huniq
    obtain ⟨hlt, hrest⟩ := List.pairwise_cons.mp hpw
    have hsplit : windowRecords source (s :: rest) =
        queryRange source s (s + 1000) ++ windowRecords source rest := by
      simp [windowRecords]
    have ihr := ih hrest fun s1 h1 s2 h2 =>
      huniq s1 (List.mem_cons_of_mem _ h1) s2 (List.mem_cons_of_mem _ h2)
    by_cases hc : s ≤ i ∧ i < s + 1000
    · have hnone : ¬∃ s' ∈ rest, s' ≤ i ∧ i < s' + 1000 := by
        rintro ⟨s', hs', hc'⟩
        have : s = s' := huniq s (List.mem_cons_self _ _) s'
          (List.mem_cons_of_mem _ hs') hc hc'
        subst this
        exact absurd (hlt s hs') (by omega)
      constructor
      · intro _
        rw [hsplit, List.countP_append, queryRange_countP_of_cover hc, hone,
          ihr.2 hnone]
      · intro hno
        exact absurd ⟨s, List.mem_cons_self _ _, hc⟩ hno
    · constructor
      · rintro ⟨s', hs', hc'⟩
        rcases List.mem_cons.mp hs' with rfl | hs''
        · exact absurd hc' hc
        · rw [hsplit, List.countP_append, queryRange_countP_of_not_cover hc,
            ihr.1 ⟨s', hs'', hc'⟩]
      · intro hno
        have hnone : ¬∃ s' ∈ rest, s' ≤ i ∧ i < s' + 1000 := by
          rintro ⟨s', hs', hc'⟩
          exact hno ⟨s', List.mem_cons_of_mem _ hs', hc'⟩
        rw [hsplit, List.countP_append, queryRange_countP_of_not_cover hc,
          ihr.2 hnone]

theorem countP_windowRecords_one {source : List SourceRecord} {next last i : Nat}
    (hsorted : source.Pairwise fun a b => a.idx < b.idx)
    (hex : ∃ r ∈ source, r.idx = i) (h1 : next ≤ i) (h2 : i ≤ last) :
    ((windowRecords source (windowStarts next last)).countP
      fun r => r.idx == i) = 1 := by
  obtain ⟨s, hs, hc⟩ := windowStarts_cover h1 h2
  exact (countP_windowRecords_aux (countP_source_one hsorted hex) _
    (windowStarts_pairwise next last)
    (fun s1 hs1 s2 hs2 hc1 hc2 =>
      windowStarts_inj hs1 hs2 hc1.1 hc1.2 hc2.1 hc2.2)).1
    ⟨s, hs, hc⟩

/-! ## Characterisation of whole runs -/

theorem runMigration_sourceEmpty (decode : Bytes → Option Block)
    (source : List SourceRecord) (target : List TargetRow)
    (hsrc : last_block_source source = none) :
    runMigration decode source target = (target, .sourceEmpty) := by
  simp only [runMigration, hsrc]

theorem runMigration_fullySynced (decode : Bytes → Option Block)
    (source : List SourceRecord) (target : List TargetRow) (lastV : Nat)
    (hsrc : last_block_source source = some lastV)
    (h : lastV < next_target_block target) :
    runMigration decode source target = (target, .fullySynced lastV) := by
  simp only [runMigration, hsrc]
  rw [if_pos h]

theorem runMigration_success (decode : Bytes → Option Block)
    (source : List SourceRecord) (target : List TargetRow) (lastV : Nat)
    (hsrc : last_block_source source = some lastV)
    (hnext : next_target_block target ≤ lastV)
    (hdec : ∀ r ∈ source, (decode r.block).isSome = true)
    (hsorted : source.Pairwise fun a b => a.idx < b.idx)
    (htgt : ∀ row ∈ target, row.idx < next_target_block target) :
    runMigration decode source target =
      (target ++ migratedRows decode
          (windowRecords source (windowStarts (next_target_block target) lastV)),
        .completed (next_target_block target)) := by
  simp only [runMigration, hsrc]
  rw [if_neg (by omega)]
  rw [runWindows_eq_processRecords]
  rw [processRecords_success decode _ target
    (fun r hr => hdec r (windowRecords_mem_source hr))
    (fun r hr row hrow => by
      have h1 := htgt row hrow
      have h2 := windowRecords_idx_lb hr
      omega)
    ((windowRecords_pairwise hsorted).imp fun h => by omega)]

theorem runMigration_mem (decode : Bytes → Option Block)
    (source : List SourceRecord) (target : List TargetRow) (lastV : Nat)
    (hsrc : last_block_source source = some lastV) :
    ∀ row ∈ (runMigration decode source target).1,
      row ∈ target ∨
        ∃ r ∈ windowRecords source
            (windowStarts (next_target_block target) lastV),
          ∃ b, decode r.block = some b ∧
            row = decodedToRow ⟨r.idx, r.hash, b, r.verified⟩ := by
  intro row h
  simp only [runMigration, hsrc] at h
  by_cases hlt : lastV < next_target_block target
  · rw [if_pos hlt] at h
    exact .inl h
  · rw [if_neg hlt] at h
    rw [runWindows_eq_processRecords] at h
    have hmem := processRecords_mem decode
      (windowRecords source (windowStarts (next_target_block target) lastV))
      target row
    rcases hp : processRecords decode target
        (windowRecords source (windowStarts (next_target_block target) lastV))
      with ⟨tgt', e⟩
    rw [hp] at hmem h
    cases e with
    | none => exact hmem (by simpa using h)
    | some err => exact hmem (by simpa using h)

theorem runMigration_facts (decode : Bytes → Option Block)
    (source : List SourceRecord) (target : List TargetRow) (lastV : Nat)
    (hsrc : last_block_source source = some lastV)
    (hnext : next_target_block target ≤ lastV)
    (hdec : ∀ r ∈ source, (decode r.block).isSome = true)
    (hsorted : source.Pairwise fun a b => a.idx < b.idx)
    (htgt : ∀ row ∈ target, row.idx < next_target_block target)
    (hbound : ∀ r ∈ source, r.idx ≤ lastV)
    (hcontig : ∀ i ∈ List.range' (next_target_block target)
        (lastV + 1 - next_target_block target), ∃ r ∈ source, r.idx = i) :
    (runMigration decode source target).2 =
        .completed (next_target_block target) ∧
      (∀ i, next_target_block target ≤ i → i ≤ lastV →
        idxCount (runMigration decode source target).1 i = 1) ∧
      (∀ row ∈ (runMigration decode source target).1, row.idx ≤ lastV) ∧
      last_block_target (runMigration decode source target).1 = some lastV := by
  have hrun := runMigration_success decode source target lastV hsrc hnext hdec
    hsorted htgt
  have hub : ∀ row ∈ (runMigration decode source target).1, row.idx ≤ lastV := by
    intro row hrow
    rcases runMigration_mem decode source target lastV hsrc row hrow with
      hin | ⟨r, hr, b, hb, rfl⟩
    · have := htgt row hin
      omega
    · have := hbound r (windowRecords_mem_source hr)
      simpa [decodedToRow] using this
  have hcount : ∀ i, next_target_block target ≤ i → i ≤ lastV →
      idxCount (runMigration decode source target).1 i = 1 := by
    intro i h1 h2
    rw [hrun]
    show idxCount (target ++ _) i = 1
    unfold idxCount
    rw [List.countP_append]
    have hz : (target.countP fun row => row.idx == i) = 0 := by
      rw [List.countP_eq_zero]
      intro row hrow
      have := htgt row hrow
      simp only [beq_iff_eq]
      omega
    have hmem_i : ∃ r ∈ source, r.idx = i := by
      refine hcontig i ?_
      rw [List.mem_range'_1]
      omega
    have hone :
        ((windowRecords source
            (windowStarts (next_target_block target) lastV)).countP
          fun r => r.idx == i) = 1 :=
      countP_windowRecords_one hsorted hmem_i h1 h2
    have hmr := migratedRows_idxCount decode i
      (windowRecords source (windowStarts (next_target_block target) lastV))
      (fun r hr => hdec r (windowRecords_mem_source hr))
    unfold idxCount at hmr
    rw [hmr, hone, hz]
  refine ⟨by rw [hrun], hcount, hub, ?_⟩
  · obtain ⟨rv, hrv, hrvver, hrvidx⟩ := last_block_source_mem hsrc
    obtain ⟨b, hb⟩ := Option.isSome_iff_exists.mp (hdec rv hrv)
    obtain ⟨s, hs, hc⟩ := windowStarts_cover hnext (Nat.le_refl lastV)
    have hrvwin : rv ∈ windowRecords source
        (windowStarts (next_target_block target) lastV) := by
      refine mem_windowRecords.mpr ⟨s, hs, mem_queryRange.mpr ⟨hrv, ?_, ?_⟩⟩
      · omega
      · omega
    have hrowmem : decodedToRow ⟨rv.idx, rv.hash, b, rv.verified⟩ ∈
        (runMigration decode source target).1 := by
      rw [hrun]
      exact List.mem_append.mpr (.inr (migratedRows_mem_of hrvwin hb))
    refine last_block_target_eq_some_of ⟨_, hrowmem, ?_, ?_⟩ ?_
    · simpa [decodedToRow] using hrvver
    · simpa [decodedToRow] using hrvidx
    · intro row hrow _
      exact hub row hrow

theorem runMigration_idempotent (decode : Bytes → Option Block)
    (source : List SourceRecord) (target : List TargetRow) (lastV : Nat)
    (hsrc : last_block_source source = some lastV)
    (hnext : next_target_block target ≤ lastV)
    (hdec : ∀ r ∈ source, (decode r.block).isSome = true)
    (hsorted : source.Pairwise fun a b => a.idx < b.idx)
    (htgt : ∀ row ∈ target, row.idx < next_target_block target)
    (hbound : ∀ r ∈ source, r.idx ≤ lastV)
    (hcontig : ∀ i ∈ List.range' (next_target_block target)
        (lastV + 1 - next_target_block target), ∃ r ∈ source, r.idx = i) :
    runMigration decode source ((runMigration decode source target).1) =
      ((runMigration decode source target).1, .fullySynced lastV) := by
  have hfacts := runMigration_facts decode source target lastV hsrc hnext hdec
    hsorted htgt hbound hcontig
  refine runMigration_fullySynced decode source _ lastV hsrc ?_
  unfold next_target_block
  rw [hfacts.2.2.2]
  show lastV < lastV + 1
  omega

/-! ## Uniqueness of indices in a sorted store, and the generated example store -/

theorem pairwise_idx_injective {source : List SourceRecord}
    (hsorted : source.Pairwise fun a b => a.idx < b.idx)
    {r1 r2 : SourceRecord} (h1 : r1 ∈ source) (h2 : r2 ∈ source)
    (heq : r1.idx = r2.idx) : r1 = r2 := by
  induction source with
  | nil => cases h1
  | cons h rest ih =>
    obtain ⟨hlt, hrest⟩ := List.pairwise_cons.mp hsorted
    rcases List.mem_cons.mp h1 with rfl | h1' <;>
      rcases List.mem_cons.mp h2 with rfl | h2'
    · rfl
    · exact absurd (hlt r2 h2') (by omega)
    · exact absurd (hlt r1 h1') (by omega)
    · exact ih hrest h1' h2'

theorem exSource_sorted (n : Nat) :
    (exSource n).Pairwise fun a b => a.idx < b.idx := by
  unfold exSource
  rw [List.pairwise_map]
  exact List.pairwise_lt_range n

theorem exSource_mem {n : Nat} {r : SourceRecord} (h : r ∈ exSource n) :
    r.idx < n ∧ r.verified = true := by
  obtain ⟨k, hk, rfl⟩ := List.mem_map.mp h
  exact ⟨List.mem_range.mp hk, rfl⟩

theorem exSource_contains {n k : Nat} (h : k < n) :
    (⟨k, [], [], true⟩ : SourceRecord) ∈ exSource n :=
  List.mem_map_of_mem _ (List.mem_range.mpr h)

theorem exSource_last {n : Nat} (h : 0 < n) :
    last_block_source (exSource n) = some (n - 1) := by
  refine last_block_source_eq_some_of
    ⟨⟨n - 1, [], [], true⟩, exSource_contains (by omega), rfl, rfl⟩ ?_
  intro r hr _
  have := (exSource_mem hr).1
  omega

/-! ## The claims -/

/-- Claim C5: for every decoded block the Field Extractor maps the operation
variant to the fixed `(from, to, amount, fee)` shape — Burn yields
`{from := source account, to := none, amount, fee := none}`, Mint yields
`{from := none, to := destination account, amount, fee := none}`, and
Transfer yields `{from, to, amount, fee}`; the amount is always present
(it is total), the fee is present exactly for Transfer, and unused fields
are `none` (absent), not zero. -/
theorem C5_field_extractor_shape :
    (∀ (f : Bytes) (a : Nat),
      op_from (.Burn f a) = some f ∧ op_to (.Burn f a) = none ∧
      op_amount (.Burn f a) = a ∧ op_fee (.Burn f a) = none) ∧
    (∀ (t : Bytes) (a : Nat),
      op_from (.Mint t a) = none ∧ op_to (.Mint t a) = some t ∧
      op_amount (.Mint t a) = a ∧ op_fee (.Mint t a) = none) ∧
    (∀ (f t : Bytes) (a fe : Nat),
      op_from (.Transfer f t a fe) = some f ∧
      op_to (.Transfer f t a fe) = some t ∧
      op_amount (.Transfer f t a fe) = a ∧
      op_fee (.Transfer f t a fe) = some fe) ∧
    (∀ op : Operation,
      (op_fee op).isSome = true ↔ ∃ f t a fe, op = .Transfer f t a fe) ∧
    (∀ (idx : Nat) (hash : Bytes) (ph : Option Bytes) (memo cat ts : Nat)
        (v : Bool) (op : Operation),
      (decodedToRow ⟨idx, hash, ⟨ph, ⟨op, memo, cat⟩, ts⟩, v⟩).from_account =
          op_from op ∧
      (decodedToRow ⟨idx, hash, ⟨ph, ⟨op, memo, cat⟩, ts⟩, v⟩).to_account =
          op_to op ∧
      (decodedToRow ⟨idx, hash, ⟨ph, ⟨op, memo, cat⟩, ts⟩, v⟩).amount =
          op_amount op ∧
      (decodedToRow ⟨idx, hash, ⟨ph, ⟨op, memo, cat⟩, ts⟩, v⟩).fee =
          op_fee op) := by
  refine ⟨fun f a => ⟨rfl, rfl, rfl, rfl⟩, fun t a => ⟨rfl, rfl, rfl, rfl⟩,
    fun f t a fe => ⟨rfl, rfl, rfl, rfl⟩, fun op => ?_,
    fun idx hash ph memo cat ts v op => ⟨rfl, rfl, rfl, rfl⟩⟩
  cases op <;> simp [op_fee]

/-- Claim C6: for every window `[a, b)` over a source table sorted by its
integer primary key `idx`, the Store Reader's query returns exactly the
records with `a ≤ idx < b`, ordered by `idx` ascending, and reads no
record outside the requested window. -/
theorem C6_store_reader (source : List SourceRecord) (a b : Nat)
    (hsorted : source.Pairwise fun x y => x.idx < y.idx) :
    (∀ r, r ∈ queryRange source a b ↔ r ∈ source ∧ a ≤ r.idx ∧ r.idx < b) ∧
    (queryRange source a b).Pairwise (fun x y => x.idx < y.idx) ∧
    (∀ r ∈ queryRange source a b, a ≤ r.idx ∧ r.idx < b) :=
  ⟨fun _ => mem_queryRange, queryRange_pairwise hsorted,
    fun _ hr => (mem_queryRange.mp hr).2⟩

/-- Claim C6 witness: the Store Reader contract evaluated on a concrete sorted
two-row store and the window `[0, 1000)`. -/
theorem C6_store_reader_witness :
    ((⟨0, [1], [], true⟩ : SourceRecord) ∈ queryRange cexSource 0 1000 ↔
      (⟨0, [1], [], true⟩ : SourceRecord) ∈ cexSource ∧ 0 ≤ 0 ∧ 0 < 1000) ∧
    (queryRange cexSource 0 1000).Pairwise (fun x y => x.idx < y.idx) := by
  have h := C6_store_reader cexSource 0 1000 (by decide)
  exact ⟨h.1 _, h.2.1⟩

/-- Claim C8: an insert whose `idx` already exists in the target fails, and the
write loop stops right there, reporting the offending `idx` together with
the full offending record (as the code's `expect` message formats the
`DecodedBlock` being written); the row is not silently skipped and no
further record of the window is processed. -/
theorem C8_write_failure_loud (decode : Bytes → Option Block)
    (tgt : List TargetRow) (rec : SourceRecord) (rest : List SourceRecord)
    (b : Block) (hdec : decode rec.block = some b)
    (hdup : ∃ row ∈ tgt, row.idx = rec.idx) :
    insertRow tgt (decodedToRow ⟨rec.idx, rec.hash, b, rec.verified⟩) = none ∧
    processRecords decode tgt (rec :: rest) =
      (tgt, some (.writeFailure rec.idx ⟨rec.idx, rec.hash, b, rec.verified⟩)) := by
  have hins : insertRow tgt
      (decodedToRow ⟨rec.idx, rec.hash, b, rec.verified⟩) = none := by
    unfold insertRow
    rw [if_pos]
    obtain ⟨row, hrow, heq⟩ := hdup
    exact List.any_eq_true.mpr ⟨row, hrow, by simp [decodedToRow, heq]⟩
  have hrow : row_to_decoded_block decode rec =
      some ⟨rec.idx, rec.hash, b, rec.verified⟩ := by
    simp [row_to_decoded_block, hdec]
  exact ⟨hins, by simp only [processRecords, hrow, hins]⟩

/-- Claim C8 witness: inserting index `0` into a target already holding a row
with index `0` fails and reports that record. -/
theorem C8_write_failure_loud_witness :
    insertRow dupTarget (decodedToRow ⟨0, [1], sampleBlock, true⟩) = none ∧
    processRecords sampleDecode dupTarget [⟨0, [1], [], true⟩] =
      (dupTarget, some (.writeFailure 0 ⟨0, [1], sampleBlock, true⟩)) :=
  C8_write_failure_loud sampleDecode dupTarget ⟨0, [1], [], true⟩ [] sampleBlock
    rfl ⟨⟨0, [1], none, 0, 0, none, none, 0, none, 0, true⟩, by decide, rfl⟩

/-- Claim C9: both timestamp columns are produced by the `f64` conversion
`nanos as f64 / 1_000_000_000f64` (modelled as IEEE round-to-nearest-even
over exact rationals), and a created-at-time of `1 000 000 000`
nanoseconds is stored as exactly the quotient `10^9 / 10^9 = 1.0`. -/
theorem C9_timestamp_conversion :
    (∀ d : DecodedBlock,
      (decodedToRow d).created_at_time =
        nanosToSeconds d.block.transaction.created_at_time ∧
      (decodedToRow d).timestamp = nanosToSeconds d.block.timestamp) ∧
    nanosToSeconds 1000000000 = (1000000000 : ℚ) / (1000000000 : ℚ) ∧
    nanosToSeconds 1000000000 = 1 := by
  refine ⟨fun d => ⟨rfl, rfl⟩, ?_, ?_⟩ <;> with_unfolding_all rfl

/-- Claim C10: the resume point is computed from `MAX(idx) WHERE verified = 1`
on the target, so rows stored with `verified = false` never advance it: a
target holding only unverified rows yields `next_start = 0`, exactly like
an empty target, and a subsequent run over a source whose maximum verified
index covers those rows requests windows containing their indices again. -/
theorem C10_resume_ignores_unverified (target : List TargetRow)
    (h : ∀ row ∈ target, row.verified = false) :
    last_block_target target = none ∧
    next_target_block target = 0 ∧
    next_target_block [] = 0 ∧
    ∀ (source : List SourceRecord) (lastV : Nat),
      last_block_source source = some lastV →
      ∀ row ∈ target, row.idx ≤ lastV →
        ∃ s ∈ windowStarts (next_target_block target) lastV,
          s ≤ row.idx ∧ row.idx < s + 1000 := by
  have hn := last_block_target_eq_none h
  have h0 : next_target_block target = 0 := by
    unfold next_target_block
    rw [hn]
  refine ⟨hn, h0, rfl, ?_⟩
  intro source lastV hsrc row hrow hle
  rw [h0]
  exact windowStarts_cover (by omega) hle

/-- Claim C10 witness: a target holding only the unverified row `5` resumes at
`0` and the run over a source with maximum verified index `5` re-requests
index `5`. -/
theorem C10_resume_ignores_unverified_witness :
    last_block_target unverifiedTarget = none ∧
    next_target_block unverifiedTarget = 0 ∧
    (∃ s ∈ windowStarts (next_target_block unverifiedTarget) 5,
      s ≤ 5 ∧ 5 < s + 1000) := by
  have h := C10_resume_ignores_unverified unverifiedTarget (by decide)
  exact ⟨h.1, h.2.1, h.2.2.2 srcFive 5 (by decide)
    ⟨5, [9], none, 0, 0, none, none, 0, none, 0, false⟩ (by decide) (by decide)⟩

/-- Claim C4: whenever `next ≤ last`, the window starts split the inclusive
range `[next, last]` into consecutive fixed-size windows of size 1000
(ascending, chained by `+ 1000`, non-overlapping, covering every index of
the range exactly once, the last window effectively partial); in
particular 2500 verified source blocks migrated from an empty target use
windows of effective sizes 1000, 1000, 500, and every one of the 2500
indices appears in the final target exactly once. -/
theorem C4_chunking (next last : Nat) (_h : next ≤ last) :
    (windowStarts next last).Pairwise (· < ·) ∧
    List.Chain' (fun a b => b = a + 1000) (windowStarts next last) ∧
    (∀ i, next ≤ i → i ≤ last →
      ∃ s ∈ windowStarts next last, s ≤ i ∧ i < s + 1000) ∧
    (∀ i s1 s2, s1 ∈ windowStarts next last → s2 ∈ windowStarts next last →
      s1 ≤ i → i < s1 + 1000 → s2 ≤ i → i < s2 + 1000 → s1 = s2) ∧
    windowStarts 0 2499 = [0, 1000, 2000] ∧
    (windowStarts 0 2499).map (windowSpan 2499) = [1000, 1000, 500] ∧
    (∀ i, i ≤ 2499 →
      idxCount (runMigration sampleDecode (exSource 2500) []).1 i = 1) ∧
    (∀ row ∈ (runMigration sampleDecode (exSource 2500) []).1,
      row.idx ≤ 2499) := by
  have hfacts := runMigration_facts sampleDecode (exSource 2500) [] 2499
    (exSource_last (by omega))
    (by decide)
    (fun r _ => rfl)
    (exSource_sorted 2500)
    (by intro row hrow; cases hrow)
    (fun r hr => by have := (exSource_mem hr).1; omega)
    (by
      intro i hi
      rw [List.mem_range'_1] at hi
      exact ⟨⟨i, [], [], true⟩, exSource_contains (by omega), rfl⟩)
  refine ⟨windowStarts_pairwise next last, windowStarts_chain next last,
    fun i h1 h2 => windowStarts_cover h1 h2,
    fun i s1 s2 hs1 hs2 ha hb hc hd => windowStarts_inj hs1 hs2 ha hb hc hd,
    by decide, by decide, ?_, hfacts.2.2.1⟩
  intro i hi
  have h0 : next_target_block ([] : List TargetRow) = 0 := rfl
  have := hfacts.2.1 i (by rw [h0]; omega) (by omega)
  exact this

/-- Claim C4 witness: the concrete 2500-block scenario — three windows starting
at 0, 1000, 2000 with effective sizes 1000, 1000, 500, and index 1500
lands in the target exactly once. -/
theorem C4_chunking_witness :
    windowStarts 0 2499 = [0, 1000, 2000] ∧
    (windowStarts 0 2499).map (windowSpan 2499) = [1000, 1000, 500] ∧
    idxCount (runMigration sampleDecode (exSource 2500) []).1 1500 = 1 := by
  have h := C4_chunking 0 2499 (by omega)
  exact ⟨h.2.2.2.2.1, h.2.2.2.2.2.1, h.2.2.2.2.2.2.1 1500 (by omega)⟩

/-- Claim C7: if a window requested by a run contains a record whose bytes fail
to decode, the run does not complete: it ends in a failure outcome, every
row written by the run comes from a window no later than the failing one
(no later window is processed), and no row for the malformed record's
index is written (it is not silently skipped, given a source sorted by
`idx`). -/
theorem C7_decode_failure_aborts (decode : Bytes → Option Block)
    (source : List SourceRecord) (target : List TargetRow) (lastV s : Nat)
    (r : SourceRecord)
    (hsrc : last_block_source source = some lastV)
    (hsorted : source.Pairwise fun a b => a.idx < b.idx)
    (hs : s ∈ windowStarts (next_target_block target) lastV)
    (hr : r ∈ queryRange source s (s + 1000))
    (hbad : decode r.block = none) :
    (∃ e, (runMigration decode source target).2 = .failed e) ∧
    (∀ row ∈ (runMigration decode source target).1,
      row ∈ target ∨ row.idx < s + 1000) ∧
    (∀ row ∈ (runMigration decode source target).1,
      row ∈ target ∨ row.idx ≠ r.idx) := by
  have hnext : next_target_block target ≤ lastV := by
    have := windowStarts_le hs
    omega
  have hrw : r ∈ windowRecords source
      (windowStarts (next_target_block target) lastV) :=
    mem_windowRecords.mpr ⟨s, hs, hr⟩
  obtain ⟨rs1, rs2, hsplit⟩ := List.append_of_mem hrw
  have hwsorted :
      (windowRecords source
        (windowStarts (next_target_block target) lastV)).Pairwise
        (fun x y => x.idx < y.idx) :=
    windowRecords_pairwise hsorted
  constructor
  · obtain ⟨e, he⟩ := processRecords_fails decode hbad
      (windowRecords source (windowStarts (next_target_block target) lastV))
      target hrw
    refine ⟨e, ?_⟩
    simp only [runMigration, hsrc]
    rw [if_neg (by omega)]
    rw [runWindows_eq_processRecords]
    rcases hp : processRecords decode target
        (windowRecords source (windowStarts (next_target_block target) lastV))
      with ⟨tgt', e'⟩
    rw [hp] at he
    simp only at he
    rw [he]
  · have hmem : ∀ row ∈ (runMigration decode source target).1,
        row ∈ target ∨ ∃ r' ∈ rs1, ∃ b, decode r'.block = some b ∧
          row = decodedToRow ⟨r'.idx, r'.hash, b, r'.verified⟩ := by
      intro row hrow
      simp only [runMigration, hsrc] at hrow
      rw [if_neg (by omega)] at hrow
      rw [runWindows_eq_processRecords] at hrow
      have := processRecords_mem_of_bad decode hbad rs1 rs2 target row
      rw [← hsplit] at this
      rcases hp : processRecords decode target
          (windowRecords source (windowStarts (next_target_block target) lastV))
        with ⟨tgt', e'⟩
      rw [hp] at this hrow
      cases e' with
      | none => exact this (by simpa using hrow)
      | some err => exact this (by simpa using hrow)
    have hrs1_lt : ∀ r' ∈ rs1, r'.idx < r.idx := by
      intro r' hr'
      rw [hsplit] at hwsorted
      exact (List.pairwise_append.mp hwsorted).2.2 r' hr' r
        (List.mem_cons_self _ _)
    have hridx : r.idx < s + 1000 := (mem_queryRange.mp hr).2.2
    constructor
    · intro row hrow
      rcases hmem row hrow with hin | ⟨r', hr', b, hb, rfl⟩
      · exact .inl hin
      · refine .inr ?_
        have := hrs1_lt r' hr'
        show r'.idx < s + 1000
        omega
    · intro row hrow
      rcases hmem row hrow with hin | ⟨r', hr', b, hb, rfl⟩
      · exact .inl hin
      · refine .inr ?_
        have := hrs1_lt r' hr'
        show r'.idx ≠ r.idx
        omega

/-- Claim C7 witness: a run over a store whose first window holds a malformed
block at index 1 fails, and the one row it wrote (index 0) belongs to the
failing window and is not the malformed record's index — even though a
later window (starting at 1000) holds a decodable block. -/
theorem C7_decode_failure_aborts_witness :
    (∃ e, (runMigration pickyDecode badSource []).2 = .failed e) ∧
    (decodedToRow ⟨0, [1], sampleBlock, true⟩).idx < 0 + 1000 ∧
    (decodedToRow ⟨0, [1], sampleBlock, true⟩).idx ≠
      (⟨1, [2], [7], true⟩ : SourceRecord).idx := by
  have h := C7_decode_failure_aborts pickyDecode badSource [] 1000 0
    ⟨1, [2], [7], true⟩ (by decide) (by decide) (by decide) (by decide) rfl
  have hrun : (runMigration pickyDecode badSource []).1 =
      [decodedToRow ⟨0, [1], sampleBlock, true⟩] := by
    with_unfolding_all rfl
  have hmem : decodedToRow ⟨0, [1], sampleBlock, true⟩ ∈
      (runMigration pickyDecode badSource []).1 := by
    rw [hrun]
    exact List.mem_singleton.mpr rfl
  exact ⟨h.1, ((h.2.1 _ hmem).resolve_left (List.not_mem_nil _)),
    ((h.2.2 _ hmem).resolve_left (List.not_mem_nil _))⟩

/-- Claim C1 counterexample: the claim "only records with verified = true are
ever written to the target" fails on the code: for the source store
`cexSource` (verified prefix = {0}, one unverified record at index 1) a
run from an empty target requests the full window `[0, 1000)` — which is
not contained in the verified prefix — and migrates the unverified row 1
as well. -/
theorem C1_only_verified_counterexample :
    (runMigration sampleDecode cexSource []).2 = .completed 0 ∧
    ((runMigration sampleDecode cexSource []).1.map
      fun row => (row.idx, row.verified)) = [(0, true), (1, false)] :=
  ⟨by decide, by decide⟩

/-- Claim C1 amended: rows are written regardless of their verified flag; every
row a run writes has `idx` below the end of the last requested window
(`windowEnd`, up to 999 past the source's maximum verified index), and —
provided the source's verified flags form a prefix (every record with
`idx ≤` the maximum verified index is verified) — every written row whose
`idx` lies within the verified prefix has `verified = true`.  Unverified
records can thus only be migrated from the last window's overshoot. -/
theorem C1_only_verified_amended (decode : Bytes → Option Block)
    (source : List SourceRecord) (target : List TargetRow) (lastV : Nat)
    (hsrc : last_block_source source = some lastV)
    (hpre : ∀ r ∈ source, r.idx ≤ lastV → r.verified = true) :
    ∀ row ∈ (runMigration decode source target).1, row ∉ target →
      row.idx < windowEnd (next_target_block target) lastV ∧
      (row.idx ≤ lastV → row.verified = true) := by
  intro row hrow hnin
  rcases runMigration_mem decode source target lastV hsrc row hrow with
    hin | ⟨r, hr, b, hb, rfl⟩
  · exact absurd hin hnin
  · have hub := windowRecords_idx_ub hr
    have hmem := windowRecords_mem_source hr
    constructor
    · simpa [decodedToRow] using hub
    · intro hle
      have hle' : r.idx ≤ lastV := by simpa [decodedToRow] using hle
      have := hpre r hmem hle'
      simpa [decodedToRow] using this

/-- Claim C1 witness: the amended statement evaluated on a one-block verified
source store from an empty target, at the single row the run writes. -/
theorem C1_only_verified_amended_witness :
    (decodedToRow ⟨0, [1], sampleBlock, true⟩).idx <
      windowEnd (next_target_block ([] : List TargetRow)) 0 ∧
    (decodedToRow ⟨0, [1], sampleBlock, true⟩).verified = true := by
  have hrun : (runMigration sampleDecode oneSource []).1 =
      [decodedToRow ⟨0, [1], sampleBlock, true⟩] := by
    with_unfolding_all rfl
  have h := C1_only_verified_amended sampleDecode oneSource [] 0 (by decide)
    (by decide) (decodedToRow ⟨0, [1], sampleBlock, true⟩)
    (by rw [hrun]; exact List.mem_singleton.mpr rfl)
    (List.not_mem_nil _)
  exact ⟨h.1, h.2 (by decide)⟩

/-- Claim C2 counterexample: the invariant "the target's maximum idx never
exceeds the source's maximum verified idx" fails on the code: for
`cexSource` the maximum verified index is 0, yet a run from an empty
target writes a row with index 1 (the unverified record caught by the
last window's overshoot). -/
theorem C2_max_idx_counterexample :
    last_block_source cexSource = some 0 ∧
    ((runMigration sampleDecode cexSource []).1.map fun row => row.idx) =
      [0, 1] :=
  ⟨by decide, by decide⟩

/-- Claim C2 amended: provided the source contains no records beyond its
maximum verified index (and is sorted with distinct indices, covers the
requested range contiguously, all its blocks decode, and the target holds
only rows below the resume point), then: every row any run (even an
aborted one, hence at every point during a run) writes has
`idx ≤ lastV`; a full run completes, every row of the final target has
`idx ≤ lastV`, some row attains `lastV`, and every index in
`[next_start, lastV]` occurs in the final target exactly once. -/
theorem C2_max_idx_amended (decode : Bytes → Option Block)
    (source : List SourceRecord) (target : List TargetRow) (lastV : Nat)
    (hsrc : last_block_source source = some lastV)
    (hnext : next_target_block target ≤ lastV)
    (hdec : ∀ r ∈ source, (decode r.block).isSome = true)
    (hsorted : source.Pairwise fun a b => a.idx < b.idx)
    (htgt : ∀ row ∈ target, row.idx < next_target_block target)
    (hbound : ∀ r ∈ source, r.idx ≤ lastV)
    (hcontig : ∀ i ∈ List.range' (next_target_block target)
        (lastV + 1 - next_target_block target), ∃ r ∈ source, r.idx = i) :
    (∀ decode' : Bytes → Option Block,
      ∀ row ∈ (runMigration decode' source target).1,
        row ∈ target ∨ row.idx ≤ lastV) ∧
    (runMigration decode source target).2 =
      .completed (next_target_block target) ∧
    (∀ row ∈ (runMigration decode source target).1, row.idx ≤ lastV) ∧
    (∃ row ∈ (runMigration decode source target).1, row.idx = lastV) ∧
    (∀ i, next_target_block target ≤ i → i ≤ lastV →
      idxCount (runMigration decode source target).1 i = 1) := by
  have hfacts := runMigration_facts decode source target lastV hsrc hnext hdec
    hsorted htgt hbound hcontig
  refine ⟨?_, hfacts.1, hfacts.2.2.1, ?_, hfacts.2.1⟩
  · intro decode' row hrow
    rcases runMigration_mem decode' source target lastV hsrc row hrow with
      hin | ⟨r, hr, b, hb, rfl⟩
    · exact .inl hin
    · refine .inr ?_
      have := hbound r (windowRecords_mem_source hr)
      simpa [decodedToRow] using this
  · have h1 := hfacts.2.1 lastV hnext (Nat.le_refl _)
    unfold idxCount at h1
    have hpos : 0 < (runMigration decode source target).1.countP
        fun row => row.idx == lastV := by omega
    obtain ⟨row, hrow, hbeq⟩ := List.countP_pos_iff.mp hpos
    exact ⟨row, hrow, by simpa using hbeq⟩

/-- Claim C2 witness: the amended statement evaluated on a one-block verified
source store from an empty target. -/
theorem C2_max_idx_amended_witness :
    (runMigration sampleDecode oneSource []).2 =
      .completed (next_target_block ([] : List TargetRow)) ∧
    (∃ row ∈ (runMigration sampleDecode oneSource []).1, row.idx = 0) := by
  have h := C2_max_idx_amended sampleDecode oneSource [] 0 (by decide)
    (by decide) (by decide) (by decide) (by decide) (by decide) (by decide)
  exact ⟨h.2.1, h.2.2.2.1⟩

/-- Claim C3 counterexample: the resume rule "next_start = target's maximum
idx + 1 when the target is non-empty" fails on the code: a non-empty
target holding only the unverified row 5 resumes at 0, not 6, and a run
against a source whose maximum verified index is 0 (which is < 6) does
not report "fully synced" with zero writes — it completes after writing
one row. -/
theorem C3_resume_counterexample :
    next_target_block unverifiedTarget = 0 ∧
    last_block_source oneSource = some 0 ∧
    (runMigration sampleDecode oneSource unverifiedTarget).2 = .completed 0 ∧
    ((runMigration sampleDecode oneSource unverifiedTarget).1.map
      fun row => row.idx) = [5, 0] :=
  ⟨by decide, by decide, by decide, by decide⟩

/-- Claim C3 amended: the resume point is `next_start = (target's maximum
VERIFIED idx) + 1` when the target has verified rows, else 0; whenever
the source's maximum verified idx is below `next_start` the run
terminates reporting fully synced with zero writes; and immediately
rerunning after a successful run with unchanged source data performs zero
writes and reports fully synced. -/
theorem C3_resume_amended (decode : Bytes → Option Block)
    (source : List SourceRecord) (target : List TargetRow) (lastV : Nat)
    (hsrc : last_block_source source = some lastV)
    (hnext : next_target_block target ≤ lastV)
    (hdec : ∀ r ∈ source, (decode r.block).isSome = true)
    (hsorted : source.Pairwise fun a b => a.idx < b.idx)
    (htgt : ∀ row ∈ target, row.idx < next_target_block target)
    (hbound : ∀ r ∈ source, r.idx ≤ lastV)
    (hcontig : ∀ i ∈ List.range' (next_target_block target)
        (lastV + 1 - next_target_block target), ∃ r ∈ source, r.idx = i) :
    (∀ (t : List TargetRow) (m : Nat),
      last_block_target t = some m → next_target_block t = m + 1) ∧
    (∀ t : List TargetRow,
      last_block_target t = none → next_target_block t = 0) ∧
    (∀ (dec' : Bytes → Option Block) (src' : List SourceRecord)
        (t : List TargetRow) (lv : Nat),
      last_block_source src' = some lv → lv < next_target_block t →
      runMigration dec' src' t = (t, .fullySynced lv)) ∧
    runMigration decode source ((runMigration decode source target).1) =
      ((runMigration decode source target).1, .fullySynced lastV) := by
  refine ⟨?_, ?_, ?_, ?_⟩
  · intro t m hm
    unfold next_target_block
    rw [hm]
  · intro t hm
    unfold next_target_block
    rw [hm]
  · intro dec' src' t lv hsrc' hlt
    exact runMigration_fullySynced dec' src' t lv hsrc' hlt
  · exact runMigration_idempotent decode source target lastV hsrc hnext hdec
      hsorted htgt hbound hcontig

/-- Claim C3 witness: the amended statement evaluated on a one-block verified
source store from an empty target: rerunning after the successful run is
fully synced with zero writes. -/
theorem C3_resume_amended_witness :
    runMigration sampleDecode oneSource
        ((runMigration sampleDecode oneSource []).1) =
      ((runMigration sampleDecode oneSource []).1, .fullySynced 0) := by
  have h := C3_resume_amended sampleDecode oneSource [] 0 (by decide)
    (by decide) (by decide) (by decide) (by decide) (by decide) (by decide)
  exact h.2.2.2

end LedgerDecoder
